import Mathlib

/-!
Verification of the repository-tree discovery and reconciliation engine
(`package_dependecies.py`): a shallow embedding of its functions and proofs
of the specified properties.

Python strings are modelled as Lean `String`s; the Python string operations
the program uses (`str.split(sep)`, `str.rstrip(chars)`, `"/" in s`) are
defined below over the underlying character lists with Python's semantics.
Python dicts are modelled as insertion-ordered association lists
(`List (String × α)`); assignment replaces the value in place, a fresh key
is appended at the end, exactly as a Python dict behaves.
External effects (the hosting API response, the `git clone` outcome and the
`git ls-tree` process result) are passed in as explicit inputs; a Python
function that can raise is modelled as returning `Option` (with `none` for
a propagating exception).
-/

namespace PkgDeps

/-- Python `str.split(sep)` for a one-character separator, over the
character list: split at every occurrence of `sep`; the empty string
splits to `[[]]`. -/
def splitChAux (sep : Char) : List Char → List Char → List (List Char)
  | [], acc => [acc.reverse]
  | c :: cs, acc =>
    if c = sep then acc.reverse :: splitChAux sep cs []
    else splitChAux sep cs (c :: acc)

/-- Python `s.split(sep)` for a one-character separator. -/
def pySplit (s : String) (sep : Char) : List String :=
  (splitChAux sep s.data []).map String.mk

/-- Python `s.rstrip(chars)`: remove trailing characters that are members of
the character set `chars` (NOT suffix removal). -/
def pyRstrip (s : String) (chars : List Char) : String :=
  String.mk ((s.data.reverse.dropWhile (fun c => chars.contains c)).reverse)

/-- Python `"/" in s` (membership of the one-character separator). -/
def pyContainsSlash (s : String) : Bool :=
  s.data.contains '/'

/-- Joining a list of path segments with `/` (used only to state theorems
about accumulated paths; the program itself concatenates with `+`). -/
def joinSlash : List String → String
  | [] => ""
  | [s] => s
  | s :: rest => s ++ "/" ++ joinSlash rest

mutual

/-- A node of the nested-dict path tree built by `fetch_tree_with_git`
(either the `"file"` marker or a nested dict), mutually with the dict
itself: `Entries` is an insertion-ordered Python dict from path segment to
child node. -/
inductive PathNode : Type
  | file : PathNode
  | dir : Entries → PathNode

/-- The entries of one nested dict, in insertion order. -/
inductive Entries : Type
  | nil : Entries
  | cons : String → PathNode → Entries → Entries

end

/-- Python dict assignment `d[k] = v` on a tree-level dict: replace the
value in place if the key is present, otherwise append at the end. -/
def entAssign : Entries → String → PathNode → Entries
  | Entries.nil, k, v => Entries.cons k v Entries.nil
  | Entries.cons k' v' rest, k, v =>
    if k' = k then Entries.cons k' v rest
    else Entries.cons k' v' (entAssign rest k v)

/-- Python dict lookup `d.get(k)` on a tree-level dict. -/
def entGet : Entries → String → Option PathNode
  | Entries.nil, _ => none
  | Entries.cons k' v rest, k => if k' = k then some v else entGet rest k

/-- Python dict assignment `d[k] = v` on a flat dict: replace the value in
place if the key is present, otherwise append the new binding at the end. -/
def dictAssign {α : Type} : List (String × α) → String → α → List (String × α)
  | [], k, v => [(k, v)]
  | kv :: rest, k, v =>
    if kv.1 = k then (kv.1, v) :: rest else kv :: dictAssign rest k v

/-- Python dict lookup `d.get(k)` on a flat dict. -/
def dictGet {α : Type} : List (String × α) → String → Option α
  | [], _ => none
  | kv :: rest, k => if kv.1 = k then some kv.2 else dictGet rest k

/-- One path inserted into the tree, following the loop
`for part in parts[:-1]: current = current.setdefault(part, {})` then
`current[parts[-1]] = "file"`. `none` models the exception Python raises
when `setdefault` returns the `"file"` string and the next iteration calls
a dict method on it. -/
def insertPath (d : Entries) : List String → Option Entries
  | [] => some d
  | [last] => some (entAssign d last PathNode.file)
  | part :: rest =>
    match entGet d part with
    | some (PathNode.dir sub) =>
      (insertPath sub rest).map (fun sub' => entAssign d part (PathNode.dir sub'))
    | some PathNode.file => none
    | none =>
      (insertPath Entries.nil rest).map
        (fun sub' => entAssign d part (PathNode.dir sub'))

/-- The tree-building loop of `fetch_tree_with_git`: fold every listed file
path (split on `/`) into the nested dict. -/
def buildTree (files : List String) : Option Entries :=
  files.foldlM (fun t f => insertPath t (pySplit f '/')) Entries.nil

/-- `find_all_files_in_tree(tree, filename, path="")`: recursively search
the nested dict for every entry whose key equals `filename`; for a match,
the recorded `folder_name` is `path.split("/")[-1] if "/" in path else path`
and the recorded path is `f"{path}/{key}" if path else key`. A matching key
is recorded even when its value is a nested dict, and is then not recursed
into (`if key == filename ... elif isinstance(value, dict)`). -/
def find_all_files_in_tree : Entries → String → String → List (String × String)
  | Entries.nil, _, _ => []
  | Entries.cons key value rest, filename, path =>
    (if key = filename then
      [(if pyContainsSlash path then (pySplit path '/').getLastD "" else path,
        if path = "" then key else path ++ "/" ++ key)]
    else
      match value with
      | PathNode.dir sub =>
        find_all_files_in_tree sub filename (if path = "" then key else path ++ "/" ++ key)
      | PathNode.file => [])
    ++ find_all_files_in_tree rest filename path

/-- `create_raw_url(owner, repo, branch, file_path)`. -/
def create_raw_url (owner repo branch file_path : String) : String :=
  "https://raw.githubusercontent.com/" ++ owner ++ "/" ++ repo ++ "/" ++ branch
    ++ "/" ++ file_path

/-- The hosting API's answer to `GET /repos/{owner}/{repo}`: the HTTP
status code and the `default_branch` field of the JSON body (absent
field modelled as `none`). -/
structure HttpResponse : Type where
  status : Nat
  default_branch : Option String

/-- The result of the `git ls-tree -r --name-only <branch>` subprocess:
exit code, the stdout already split into lines (`splitlines()`), and
stderr. -/
structure ProcResult : Type where
  returncode : Int
  stdoutLines : List String
  stderr : String

/-- The external world one repository's processing interacts with: the
hosting API response, whether `git clone --bare` succeeds (`check=True`
raises when it does not), and the `git ls-tree` process result. -/
structure RepoEnv : Type where
  api : HttpResponse
  cloneOk : Bool
  lsTree : ProcResult

/-- `get_default_branch(owner, repo)`: the `default_branch` field on a 200
response (defaulting to `"main"` when the field is absent), and the fixed
fallback `"main"` on any other status. -/
def get_default_branch (owner repo : String) (response : HttpResponse) : String :=
  if response.status = 200 then response.default_branch.getD "main"
  else
    let _ := owner
    let _ := repo
    "main"

/-- Python falsiness of an optional string (`if not x`): absent or empty. -/
def optFalsy : Option String → Bool
  | none => true
  | some s => s = ""

/-- Lines 23–24 of the source (also repeated at lines 78–79):
`parts = repo_url.rstrip('.git').split('/'); owner, repo = parts[-2], parts[-1]`.
`none` models the `IndexError` raised by `parts[-2]` when the split has a
single element. -/
def parseOwnerRepo (repo_url : String) : Option (String × String) :=
  let parts := pySplit (pyRstrip repo_url ['.', 'g', 'i', 't']) '/'
  if parts.length < 2 then none
  else some (parts.dropLast.getLastD "", parts.getLastD "")

/-- The value `fetch_tree_with_git` returns when it does not raise: the
sentinel `(None, None)` pair together with the error message it printed,
or the built tree with the resolved branch. -/
inductive FetchOutcome : Type
  | noTree : List String → FetchOutcome
  | tree : Entries → String → FetchOutcome

/-- `fetch_tree_with_git(repo_url, branch, temp_dir)`: parse owner/repo
from the URL, resolve the branch via the hosting API when the given one is
falsy, clone (an exception when the clone fails, since `check=True`), run
`git ls-tree`; on a non-zero exit print the stderr and return the
`(None, None)` sentinel, otherwise build and return the path tree. -/
def fetch_tree_with_git (repo_url : String) (branch : Option String)
    (env : RepoEnv) : Option FetchOutcome :=
  match parseOwnerRepo repo_url with
  | none => none
  | some (owner, repo) =>
    let branch := if optFalsy branch then get_default_branch owner repo env.api
      else branch.getD ""
    if env.cloneOk = false then none
    else if env.lsTree.returncode ≠ 0 then
      some (FetchOutcome.noTree ["Error: " ++ env.lsTree.stderr])
    else
      match buildTree env.lsTree.stdoutLines with
      | none => none
      | some tree => some (FetchOutcome.tree tree branch)

/-- `get_package_dependencies(repo_url, branch, temp_dir, filename_to_find)`:
fetch the tree, re-parse owner/repo, and when a tree was obtained build the
results dict `results[folder_name] = raw_url` over all findings (a root
finding's empty folder name is replaced by the repo short name). When the
fetch returned the sentinel, the results dict stays empty. -/
def get_package_dependencies (repo_url : String) (branch : Option String)
    (env : RepoEnv) (filename_to_find : String) :
    Option (List (String × String)) :=
  match fetch_tree_with_git repo_url branch env with
  | none => none
  | some outcome =>
    match parseOwnerRepo repo_url with
    | none => none
    | some (_owner, repo) =>
      match outcome with
      | FetchOutcome.noTree _ => some []
      | FetchOutcome.tree tree_structure branch =>
        let found_files := find_all_files_in_tree tree_structure filename_to_find ""
        some (found_files.foldl (fun results x =>
          let raw_url := create_raw_url _owner repo branch x.2
          let folder_name := if x.1 = "" then repo else x.1
          dictAssign results folder_name raw_url) [])

/-- One manifest entry's record: the `url`, `version` and `packages`
fields, each possibly absent. -/
structure RepoData : Type where
  url : Option String
  version : Option String
  packages : Option (List String)

/-- The shared reconciliation counters. -/
structure Report : Type where
  total : Nat
  matched : Nat
  mismatched : Nat
  unmatched : Nat
deriving DecidableEq

/-- Pointwise sum of two reports (applying one worker's increments). -/
def addReport (r d : Report) : Report :=
  ⟨r.total + d.total, r.matched + d.matched, r.mismatched + d.mismatched,
    r.unmatched + d.unmatched⟩

/-- `process_repo(repo_name, repo_data)`: the per-repository worker. It
returns the increments it applies to the shared report together with the
lines it appends to the output file; `none` models a worker whose body
raised (the pool swallows the exception). -/
def process_repo (repo_data : RepoData) (env : RepoEnv) :
    Option (Report × List String) :=
  match repo_data.url with
  | none => some (⟨0, 0, 0, 1⟩, [])
  | some repo_url =>
    if repo_url = "" then some (⟨0, 0, 0, 1⟩, [])
    else
      let branch := repo_data.version.getD "main"
      match get_package_dependencies repo_url (some branch) env "package.xml" with
      | none => none
      | some dependencies =>
        let pkgs := repo_data.packages.getD []
        let step := dependencies.foldl (fun st kv =>
          if pkgs.contains kv.1 then
            (dictAssign st.1 kv.1 kv.2, st.2.1 + 1, st.2.2)
          else (st.1, st.2.1, st.2.2 + 1)) (([] : List (String × String)), 0, 0)
        some (⟨pkgs.length, step.2.1, step.2.2, 0⟩,
          step.1.map (fun kv => kv.1 ++ " => " ++ kv.2 ++ "\n"))

/-- The run loop of `parse_and_validate_yaml`: one unit of work per
manifest entry, each entry paired with the external world it observes.
The shared counters and the appended output lines are accumulated; the
increments are modelled as serialized, which is what a complete run's
final totals reflect. A worker that raised contributes nothing. -/
def parse_and_validate_yaml (entries : List (RepoData × RepoEnv)) :
    Report × List String :=
  entries.foldl (fun acc e =>
    match process_repo e.1 e.2 with
    | none => acc
    | some (d, lines) => (addReport acc.1 d, acc.2 ++ lines))
    (⟨0, 0, 0, 0⟩, [])

/-! Concrete fixtures used by witnesses and counterexamples. -/

/-- A world in which the clone succeeds and `git ls-tree` lists two files,
`foo/package.xml` and `sub/foo/package.xml`. -/
def env0 : RepoEnv :=
  ⟨⟨404, none⟩, true, ⟨0, ["foo/package.xml", "sub/foo/package.xml"], ""⟩⟩

/-- A manifest entry with a usable URL, branch `main` and one declared
package `foo`. -/
def rd0 : RepoData := ⟨some "https://github.com/o/r", some "main", some ["foo"]⟩

/-- The tree `fetch_tree_with_git` builds from `env0`'s listing. -/
def T0 : Entries :=
  Entries.cons "foo" (PathNode.dir (Entries.cons "package.xml" PathNode.file Entries.nil))
    (Entries.cons "sub"
      (PathNode.dir (Entries.cons "foo"
        (PathNode.dir (Entries.cons "package.xml" PathNode.file Entries.nil))
        Entries.nil))
      Entries.nil)

/-- A manifest entry whose `url` field is absent but which declares one
package. -/
def rdNoUrl : RepoData := ⟨none, none, some ["a"]⟩

/-- A world in which `git ls-tree` exits non-zero. -/
def envFail : RepoEnv := ⟨⟨404, none⟩, true, ⟨128, [], "fatal: bad branch"⟩⟩

/-- The tree of a repository holding exactly `a/b/package.xml`. -/
def TA : Entries :=
  Entries.cons "a"
    (PathNode.dir (Entries.cons "b"
      (PathNode.dir (Entries.cons "package.xml" PathNode.file Entries.nil))
      Entries.nil))
    Entries.nil

end PkgDeps

namespace PkgDeps

/-! Lemmas about Python dict assignment on flat dicts. -/

theorem dictAssign_mem_fst {α : Type} (d : List (String × α)) (k : String) (v : α)
    (k' : String) :
    k' ∈ (dictAssign d k v).map Prod.fst ↔ k' ∈ d.map Prod.fst ∨ k' = k := by
  induction d with
  | nil => simp [dictAssign]
  | cons kv rest ih =>
    by_cases h : kv.1 = k
    · subst h
      simp [dictAssign]
      tauto
    · simp [dictAssign, h, ih]
      tauto

theorem dictAssign_nodup_fst {α : Type} (d : List (String × α)) (k : String) (v : α)
    (hnd : (d.map Prod.fst).Nodup) : ((dictAssign d k v).map Prod.fst).Nodup := by
  induction d with
  | nil => simp [dictAssign]
  | cons kv rest ih =>
    by_cases h : kv.1 = k
    · subst h
      simpa [dictAssign] using hnd
    · simp only [List.map_cons, List.nodup_cons] at hnd
      simp only [dictAssign, if_neg h, List.map_cons, List.nodup_cons]
      refine ⟨fun hm => ?_, ih hnd.2⟩
      rw [dictAssign_mem_fst] at hm
      rcases hm with hm | hm
      · exact hnd.1 hm
      · exact h hm

theorem dictGet_dictAssign {α : Type} (d : List (String × α)) (k : String) (v : α)
    (k' : String) :
    dictGet (dictAssign d k v) k' = if k' = k then some v else dictGet d k' := by
  induction d with
  | nil =>
    show (if k = k' then some v else dictGet [] k') = if k' = k then some v else none
    by_cases hk : k' = k
    · rw [if_pos hk, if_pos hk.symm]
    · rw [if_neg hk, if_neg (fun hh => hk hh.symm)]
      rfl
  | cons kv rest ih =>
    by_cases h : kv.1 = k
    · rw [dictAssign, if_pos h]
      show (if kv.1 = k' then some v else dictGet rest k') = _
      by_cases h' : kv.1 = k'
      · rw [if_pos h', if_pos (h'.symm.trans h)]
      · have hk'k : ¬ k' = k := fun hh => h' (h.trans hh.symm)
        rw [if_neg h', if_neg hk'k]
        show dictGet rest k' = if kv.1 = k' then some kv.2 else dictGet rest k'
        rw [if_neg h']
    · rw [dictAssign, if_neg h]
      show (if kv.1 = k' then some kv.2 else dictGet (dictAssign rest k v) k') = _
      by_cases h' : kv.1 = k'
      · have hk'k : ¬ k' = k := fun hh => h (h'.trans hh)
        rw [if_pos h', if_neg hk'k]
        show some kv.2 = if kv.1 = k' then some kv.2 else dictGet rest k'
        rw [if_pos h']
      · rw [if_neg h', ih]
        by_cases hk : k' = k
        · rw [if_pos hk, if_pos hk]
        · rw [if_neg hk, if_neg hk]
          show dictGet rest k' = if kv.1 = k' then some kv.2 else dictGet rest k'
          rw [if_neg h']

theorem foldl_dictAssign_mem_fst {α : Type} (E : List (String × α))
    (acc : List (String × α)) (k : String) :
    (k ∈ ((E.foldl (fun d kv => dictAssign d kv.1 kv.2) acc).map Prod.fst)) ↔
      k ∈ acc.map Prod.fst ∨ k ∈ E.map Prod.fst := by
  induction E generalizing acc with
  | nil => simp
  | cons kv E ih =>
    simp only [List.foldl_cons, ih, dictAssign_mem_fst, List.map_cons, List.mem_cons]
    tauto

theorem foldl_dictAssign_nodup_fst {α : Type} (E : List (String × α))
    (acc : List (String × α)) (hnd : (acc.map Prod.fst).Nodup) :
    (((E.foldl (fun d kv => dictAssign d kv.1 kv.2) acc)).map Prod.fst).Nodup := by
  induction E generalizing acc with
  | nil => exact hnd
  | cons kv E ih => exact ih _ (dictAssign_nodup_fst _ _ _ hnd)

theorem foldl_dictAssign_get {α : Type} (E : List (String × α))
    (acc : List (String × α)) (k : String) :
    dictGet (E.foldl (fun d kv => dictAssign d kv.1 kv.2) acc) k =
      match ((E.filter (fun kv => kv.1 = k)).map Prod.snd).getLast? with
      | some v => some v
      | none => dictGet acc k := by
  induction E generalizing acc with
  | nil => simp
  | cons kv E ih =>
    simp only [List.foldl_cons, ih, dictGet_dictAssign, List.filter_cons]
    by_cases h : kv.1 = k
    · rw [if_pos (decide_eq_true h)]
      simp only [List.map_cons]
      cases hfe : (E.filter (fun kv => decide (kv.1 = k))).map Prod.snd with
      | nil => simp [h]
      | cons b l =>
        have hex : ∃ v, (b :: l).getLast? = some v := by
          cases hbl : (b :: l).getLast? with
          | none => simp at hbl
          | some v => exact ⟨v, rfl⟩
        obtain ⟨v, hv⟩ := hex
        rw [List.getLast?_cons_cons, hv]
    · rw [if_neg (fun hh => h (of_decide_eq_true hh)),
        if_neg (fun hh => h hh.symm)]

theorem get_deps_tree_eq (repo_url : String) (bo : Option String) (env : RepoEnv)
    (fn owner repo : String) (t : Entries) (br : String)
    (hpar : parseOwnerRepo repo_url = some (owner, repo))
    (hft : fetch_tree_with_git repo_url bo env = some (FetchOutcome.tree t br)) :
    get_package_dependencies repo_url bo env fn =
      some (((find_all_files_in_tree t fn "").map
        (fun x => (if x.1 = "" then repo else x.1,
          create_raw_url owner repo br x.2))).foldl
          (fun d kv => dictAssign d kv.1 kv.2) []) := by
  simp [get_package_dependencies, hft, hpar, List.foldl_map]

theorem process_fold_counts (pkgs : List String) (D : List (String × String))
    (acc : List (String × String)) (m mm : Nat) :
    ((D.foldl (fun st kv =>
        if pkgs.contains kv.1 then (dictAssign st.1 kv.1 kv.2, st.2.1 + 1, st.2.2)
        else (st.1, st.2.1, st.2.2 + 1)) (acc, m, mm)).2.1 =
      m + (D.filter (fun kv => pkgs.contains kv.1)).length) ∧
    ((D.foldl (fun st kv =>
        if pkgs.contains kv.1 then (dictAssign st.1 kv.1 kv.2, st.2.1 + 1, st.2.2)
        else (st.1, st.2.1, st.2.2 + 1)) (acc, m, mm)).2.2 =
      mm + (D.filter (fun kv => !pkgs.contains kv.1)).length) := by
  induction D generalizing acc m mm with
  | nil => simp
  | cons kv D ih =>
    cases hb : pkgs.contains kv.1 with
    | true =>
      have hnot : ¬ ((!pkgs.contains kv.1) = true) := by rw [hb]; decide
      refine ⟨?_, ?_⟩
      · rw [List.foldl_cons, if_pos hb]
        dsimp only
        rw [(ih _ _ _).1, List.filter_cons, if_pos hb, List.length_cons]
        omega
      · rw [List.foldl_cons, if_pos hb]
        dsimp only
        rw [(ih _ _ _).2, List.filter_cons, if_neg hnot]
    | false =>
      have hnot : ¬ (pkgs.contains kv.1 = true) := by rw [hb]; decide
      have hpos : (!pkgs.contains kv.1) = true := by rw [hb]; rfl
      refine ⟨?_, ?_⟩
      · rw [List.foldl_cons, if_neg hnot]
        dsimp only
        rw [(ih _ _ _).1, List.filter_cons, if_neg hnot]
      · rw [List.foldl_cons, if_neg hnot]
        dsimp only
        rw [(ih _ _ _).2, List.filter_cons, if_pos hpos, List.length_cons]
        omega

theorem dictAssign_not_mem {α : Type} (d : List (String × α)) (k : String) (v : α)
    (h : k ∉ d.map Prod.fst) : dictAssign d k v = d ++ [(k, v)] := by
  induction d with
  | nil => rfl
  | cons kv rest ih =>
    simp only [List.map_cons, List.mem_cons] at h
    push_neg at h
    rw [dictAssign, if_neg (fun hh => h.1 hh.symm), ih h.2, List.cons_append]

theorem process_fold_dict (pkgs : List String) (D : List (String × String))
    (acc : List (String × String)) (m mm : Nat)
    (hdisj : ∀ kv ∈ D, kv.1 ∉ acc.map Prod.fst)
    (hnd : (D.map Prod.fst).Nodup) :
    (D.foldl (fun st kv =>
        if pkgs.contains kv.1 then (dictAssign st.1 kv.1 kv.2, st.2.1 + 1, st.2.2)
        else (st.1, st.2.1, st.2.2 + 1)) (acc, m, mm)).1 =
      acc ++ D.filter (fun kv => pkgs.contains kv.1) := by
  induction D generalizing acc m mm with
  | nil => simp
  | cons kv D ih =>
    simp only [List.map_cons, List.nodup_cons] at hnd
    cases hb : pkgs.contains kv.1 with
    | true =>
      rw [List.foldl_cons, if_pos hb]
      dsimp only
      rw [dictAssign_not_mem _ _ _ (hdisj kv (List.mem_cons_self _ _)), Prod.mk.eta]
      have hdisj' : ∀ kv' ∈ D, kv'.1 ∉ (acc ++ [kv]).map Prod.fst := by
        intro kv' hkv'
        rw [List.map_append, List.mem_append]
        rintro (hin | hin)
        · exact hdisj kv' (List.mem_cons_of_mem _ hkv') hin
        · simp only [List.map_cons, List.map_nil, List.mem_singleton] at hin
          exact hnd.1 (hin ▸ List.mem_map_of_mem Prod.fst hkv')
      rw [ih _ _ _ hdisj' hnd.2, List.filter_cons, if_pos hb, List.append_assoc,
        List.singleton_append]
    | false =>
      have hnot : ¬ (pkgs.contains kv.1 = true) := by rw [hb]; decide
      rw [List.foldl_cons, if_neg hnot]
      dsimp only
      rw [ih _ _ _ (fun kv' hkv' => hdisj kv' (List.mem_cons_of_mem _ hkv')) hnd.2,
        List.filter_cons, if_neg hnot]

theorem get_deps_nodup (repo_url : String) (bo : Option String) (env : RepoEnv)
    (fn : String) (D : List (String × String))
    (hdeps : get_package_dependencies repo_url bo env fn = some D) :
    (D.map Prod.fst).Nodup := by
  unfold get_package_dependencies at hdeps
  cases hf : fetch_tree_with_git repo_url bo env with
  | none => rw [hf] at hdeps; exact absurd hdeps (by simp)
  | some outcome =>
    rw [hf] at hdeps
    cases hp : parseOwnerRepo repo_url with
    | none => rw [hp] at hdeps; exact absurd hdeps (by simp)
    | some pr =>
      obtain ⟨owner, repo⟩ := pr
      rw [hp] at hdeps
      cases outcome with
      | noTree log =>
        simp only [Option.some.injEq] at hdeps
        rw [← hdeps]
        simp
      | tree t br =>
        simp only [Option.some.injEq] at hdeps
        rw [← hdeps, ← List.foldl_map (fun x : String × String =>
          (if x.1 = "" then repo else x.1, create_raw_url owner repo br x.2))
          (fun d kv => dictAssign d kv.1 kv.2)]
        exact foldl_dictAssign_nodup_fst _ _ (by simp)

theorem process_repo_usable (rd : RepoData) (env : RepoEnv) (u : String)
    (hu : rd.url = some u) (hne : u ≠ "") (D : List (String × String))
    (hdeps : get_package_dependencies u (some (rd.version.getD "main")) env
      "package.xml" = some D)
    (hnd : (D.map Prod.fst).Nodup) :
    process_repo rd env = some (
      ⟨(rd.packages.getD []).length,
       (D.filter (fun kv => (rd.packages.getD []).contains kv.1)).length,
       (D.filter (fun kv => !(rd.packages.getD []).contains kv.1)).length, 0⟩,
      (D.filter (fun kv => (rd.packages.getD []).contains kv.1)).map
        (fun kv => kv.1 ++ " => " ++ kv.2 ++ "\n")) := by
  simp only [process_repo, hu, if_neg hne, hdeps]
  rw [(process_fold_counts (rd.packages.getD []) D [] 0 0).1,
    (process_fold_counts (rd.packages.getD []) D [] 0 0).2,
    process_fold_dict (rd.packages.getD []) D [] 0 0 (by simp) hnd]
  simp

/-- C5: `create_raw_url` is pure string construction following exactly the
template `https://raw.githubusercontent.com/{owner}/{repo}/{branch}/{path}`,
and on the spec's example inputs it yields exactly the spec's example URL. -/
theorem C5_create_raw_url_exact :
    (∀ o r b p, create_raw_url o r b p =
      "https://raw.githubusercontent.com/" ++ o ++ "/" ++ r ++ "/" ++ b ++ "/" ++ p) ∧
    create_raw_url "ros" "ros_comm" "noetic-devel" "clients/rospy/package.xml" =
      "https://raw.githubusercontent.com/ros/ros_comm/noetic-devel/clients/rospy/package.xml" :=
  ⟨fun _ _ _ _ => rfl, rfl⟩

/-- C7: the code does NOT strip a trailing `.git` suffix: it calls
`rstrip('.git')`, which removes any trailing characters from the set
`{'.', 'g', 'i', 't'}`. On the URL `https://github.com/ros/rosbag`
(no `.git` suffix at all) the parsed repo is `"rosba"`, not `"rosbag"`
as the claim requires. The branch-fallback half of the claim does hold:
a non-200 response resolves to `"main"`. -/
theorem C7_rstrip_bug :
    parseOwnerRepo "https://github.com/ros/rosbag" = some ("ros", "rosba") ∧
    ("rosba" : String) ≠ "rosbag" ∧
    get_default_branch "ros" "rosbag" ⟨404, some "master"⟩ = "main" ∧
    get_default_branch "ros" "rosbag" ⟨500, none⟩ = "main" :=
  ⟨rfl, by decide, rfl, rfl⟩

/-- C10: when a directory node's key equals the target filename, the
searcher emits a Finding for that directory and does not recurse into it —
the result is the same for every subtree `sub`, so nothing beneath such a
directory is ever enumerated. Concretely, a tree with a directory named
`package.xml` containing `a/package.xml` yields only the Finding for the
directory itself. -/
theorem C10_dir_named_filename_shadows :
    (∀ (filename path : String) (sub rest : Entries),
      find_all_files_in_tree
          (Entries.cons filename (PathNode.dir sub) rest) filename path =
        (if pyContainsSlash path then (pySplit path '/').getLastD "" else path,
         if path = "" then filename else path ++ "/" ++ filename)
          :: find_all_files_in_tree rest filename path) ∧
    find_all_files_in_tree
      (Entries.cons "package.xml"
        (PathNode.dir (Entries.cons "a"
          (PathNode.dir (Entries.cons "package.xml" PathNode.file Entries.nil))
          Entries.nil))
        Entries.nil)
      "package.xml" "" = [("", "package.xml")] := by
  constructor
  · intro filename path sub rest
    simp [find_all_files_in_tree]
  · rfl

/-- C4: a manifest entry increments `unmatched` (by exactly 1) if and only
if its `url` field is missing or empty; such an entry contributes exactly
the report delta `⟨0, 0, 0, 1⟩` — no `total`, `matched` or `mismatched`
increment — and no output line, while an entry with a usable URL never
increments `unmatched`, findings or not. -/
theorem C4_unmatched_iff_no_url (rd : RepoData) (env : RepoEnv) (d : Report)
    (out : List String) (hpr : process_repo rd env = some (d, out)) :
    if optFalsy rd.url then d = ⟨0, 0, 0, 1⟩ ∧ out = [] else d.unmatched = 0 := by
  cases hu : rd.url with
  | none =>
    simp only [process_repo, hu, Option.some.injEq, Prod.mk.injEq] at hpr
    simp [optFalsy, ← hpr.1, ← hpr.2]
  | some u =>
    by_cases he : u = ""
    · subst he
      simp [process_repo, hu] at hpr
      simp [optFalsy, ← hpr.1, ← hpr.2]
    · simp only [process_repo, hu, if_neg he] at hpr
      cases hdeps : get_package_dependencies u (some (rd.version.getD "main")) env
        "package.xml" with
      | none => rw [hdeps] at hpr; exact absurd hpr (by simp)
      | some D =>
        rw [hdeps] at hpr
        simp only [Option.some.injEq, Prod.mk.injEq] at hpr
        simp [optFalsy, he, ← hpr.1]

/-- C4 witness: the no-url entry `rdNoUrl` concretely produces the report
delta `⟨0, 0, 0, 1⟩` and no output line. -/
theorem C4_witness :
    if optFalsy rdNoUrl.url then
      (⟨0, 0, 0, 1⟩ : Report) = ⟨0, 0, 0, 1⟩ ∧ ([] : List String) = []
    else (⟨0, 0, 0, 1⟩ : Report).unmatched = 0 :=
  C4_unmatched_iff_no_url rdNoUrl env0 ⟨0, 0, 0, 1⟩ [] rfl

/-- C6: when the `git ls-tree` command exits non-zero, `fetch_tree_with_git`
returns the `(None, None)` sentinel (no exception) after logging the
command's stderr, and `get_package_dependencies` turns that sentinel into
the empty result mapping — zero findings for that repository. -/
theorem C6_lstree_failure_sentinel (repo_url : String) (branch : Option String)
    (env : RepoEnv) (filename owner repo : String)
    (hpar : parseOwnerRepo repo_url = some (owner, repo))
    (hclone : env.cloneOk = true)
    (hrc : env.lsTree.returncode ≠ 0) :
    fetch_tree_with_git repo_url branch env =
      some (FetchOutcome.noTree ["Error: " ++ env.lsTree.stderr]) ∧
    get_package_dependencies repo_url branch env filename = some [] := by
  have hf : fetch_tree_with_git repo_url branch env =
      some (FetchOutcome.noTree ["Error: " ++ env.lsTree.stderr]) := by
    simp [fetch_tree_with_git, hpar, hclone, hrc]
  refine ⟨hf, ?_⟩
  simp [get_package_dependencies, hf, hpar]

/-- C6 witness: a concrete failing `git ls-tree` (exit code 128) yields the
sentinel with the logged stderr and the empty result mapping. -/
theorem C6_witness :
    fetch_tree_with_git "https://github.com/o/r" none envFail =
      some (FetchOutcome.noTree ["Error: fatal: bad branch"]) ∧
    get_package_dependencies "https://github.com/o/r" none envFail "package.xml" =
      some [] :=
  C6_lstree_failure_sentinel "https://github.com/o/r" none envFail "package.xml"
    "o" "r" rfl rfl (by decide)

/-- C8: a repository's appended output is exactly one line per matched
result, in the literal format `{folder_name} => {raw_url}\n` (the matched
results being the dependency-dict entries whose key is a declared package);
mismatched entries contribute no line, and the same entry with its URL
removed — an entry counted as `unmatched` — contributes no line at all. -/
theorem C8_output_lines (rd : RepoData) (env : RepoEnv) (u : String) (d : Report)
    (out : List String) (D : List (String × String))
    (hu : rd.url = some u) (hne : u ≠ "")
    (hdeps : get_package_dependencies u (some (rd.version.getD "main")) env
      "package.xml" = some D)
    (hpr : process_repo rd env = some (d, out)) :
    out = (D.filter (fun kv => (rd.packages.getD []).contains kv.1)).map
        (fun kv => kv.1 ++ " => " ++ kv.2 ++ "\n") ∧
    process_repo ⟨none, rd.version, rd.packages⟩ env = some (⟨0, 0, 0, 1⟩, []) := by
  have hnd := get_deps_nodup _ _ _ _ _ hdeps
  have hshape := process_repo_usable rd env u hu hne D hdeps hnd
  rw [hshape] at hpr
  simp only [Option.some.injEq, Prod.mk.injEq] at hpr
  exact ⟨hpr.2.symm, rfl⟩

/-- C8 witness: concretely, `rd0` against `env0` appends exactly the one
matched line, and the same entry without a URL appends nothing. -/
theorem C8_witness :
    (["foo => https://raw.githubusercontent.com/o/r/main/sub/foo/package.xml\n"] :
        List String) =
      (([("foo", "https://raw.githubusercontent.com/o/r/main/sub/foo/package.xml")].filter
          (fun kv => (rd0.packages.getD []).contains kv.1)).map
        (fun kv => kv.1 ++ " => " ++ kv.2 ++ "\n")) ∧
    process_repo ⟨none, rd0.version, rd0.packages⟩ env0 = some (⟨0, 0, 0, 1⟩, []) :=
  C8_output_lines rd0 env0 "https://github.com/o/r" ⟨1, 1, 0, 0⟩
    ["foo => https://raw.githubusercontent.com/o/r/main/sub/foo/package.xml\n"]
    [("foo", "https://raw.githubusercontent.com/o/r/main/sub/foo/package.xml")]
    rfl (by decide) rfl rfl

/-- C9: within one repository the result mapping has no duplicate keys, and
the URL stored under each effective folder name is the one of the Finding
enumerated last with that name — so a run appends at most one line per
distinct effective folder name per repository. -/
theorem C9_last_finding_wins (repo_url : String) (bo : Option String) (env : RepoEnv)
    (fn owner repo : String) (t : Entries) (br : String) (D : List (String × String))
    (hpar : parseOwnerRepo repo_url = some (owner, repo))
    (hft : fetch_tree_with_git repo_url bo env = some (FetchOutcome.tree t br))
    (hdeps : get_package_dependencies repo_url bo env fn = some D) :
    (D.map Prod.fst).Nodup ∧
    ∀ k, dictGet D k =
      ((((find_all_files_in_tree t fn "").map (fun x =>
          (if x.1 = "" then repo else x.1,
           create_raw_url owner repo br x.2))).filter
          (fun kv => kv.1 = k)).map Prod.snd).getLast? := by
  have hD := get_deps_tree_eq repo_url bo env fn owner repo t br hpar hft
  rw [hdeps] at hD
  simp only [Option.some.injEq] at hD
  subst hD
  refine ⟨foldl_dictAssign_nodup_fst _ _ (by simp), fun k => ?_⟩
  rw [foldl_dictAssign_get]
  cases h : ((((find_all_files_in_tree t fn "").map (fun x =>
      (if x.1 = "" then repo else x.1,
       create_raw_url owner repo br x.2))).filter
      (fun kv => kv.1 = k)).map Prod.snd).getLast? with
  | none => rfl
  | some v => rfl

/-- C9 witness: for the tree with `foo/package.xml` and
`sub/foo/package.xml`, the mapping holds only the URL of the second
(last-enumerated) finding under the key `foo`. -/
theorem C9_witness :
    (([("foo", "https://raw.githubusercontent.com/o/r/main/sub/foo/package.xml")] :
        List (String × String)).map Prod.fst).Nodup ∧
    dictGet
        [("foo", "https://raw.githubusercontent.com/o/r/main/sub/foo/package.xml")]
        "foo" =
      ((((find_all_files_in_tree T0 "package.xml" "").map (fun x =>
          (if x.1 = "" then "r" else x.1,
           create_raw_url "o" "r" "main" x.2))).filter
          (fun kv => kv.1 = "foo")).map Prod.snd).getLast? := by
  have h := C9_last_finding_wins "https://github.com/o/r" (some "main") env0
    "package.xml" "o" "r" T0 "main"
    [("foo", "https://raw.githubusercontent.com/o/r/main/sub/foo/package.xml")]
    rfl rfl rfl
  exact ⟨h.1, h.2 "foo"⟩

/-- C2 (amended): for each repository that produced a tree, every entry of
the dependency dict increments exactly one of `matched`/`mismatched`
according to membership of the effective folder name in the declared
packages, so `matched + mismatched` equals the number of DISTINCT effective
folder names among the Findings — not the number of Findings themselves. -/
theorem C2_amended_matched_mismatched (rd : RepoData) (env : RepoEnv) (u : String)
    (owner repo : String) (t : Entries) (br : String) (d : Report) (out : List String)
    (hu : rd.url = some u) (hne : u ≠ "")
    (hpar : parseOwnerRepo u = some (owner, repo))
    (hft : fetch_tree_with_git u (some (rd.version.getD "main")) env =
      some (FetchOutcome.tree t br))
    (hpr : process_repo rd env = some (d, out)) :
    d.matched + d.mismatched =
      (((find_all_files_in_tree t "package.xml" "").map
        (fun x => if x.1 = "" then repo else x.1)).toFinset).card := by
  have hD := get_deps_tree_eq u (some (rd.version.getD "main")) env "package.xml"
    owner repo t br hpar hft
  have hnd := get_deps_nodup _ _ _ _ _ hD
  have hshape := process_repo_usable rd env u hu hne _ hD hnd
  rw [hshape] at hpr
  simp only [Option.some.injEq, Prod.mk.injEq] at hpr
  obtain ⟨hd, -⟩ := hpr
  subst hd
  set E := (find_all_files_in_tree t "package.xml" "").map
    (fun x => (if x.1 = "" then repo else x.1, create_raw_url owner repo br x.2)) with hE
  set D := E.foldl (fun d kv => dictAssign d kv.1 kv.2) [] with hDdef
  show (D.filter _).length + (D.filter _).length = _
  rw [← List.length_eq_length_filter_add]
  have hfst : (D.map Prod.fst).toFinset =
      ((find_all_files_in_tree t "package.xml" "").map
        (fun x => if x.1 = "" then repo else x.1)).toFinset := by
    apply Finset.ext
    intro a
    simp only [List.mem_toFinset]
    rw [hDdef, foldl_dictAssign_mem_fst]
    simp only [List.map_nil, List.not_mem_nil, false_or]
    rw [hE, List.map_map]
    constructor
    · intro ha
      simpa using ha
    · intro ha
      simpa using ha
  calc D.length = (D.map Prod.fst).length := (List.length_map _ _).symm
    _ = (D.map Prod.fst).toFinset.card := (List.toFinset_card_of_nodup hnd).symm
    _ = _ := by rw [hfst]

/-- C2 counterexample: the tree with `foo/package.xml` and
`sub/foo/package.xml` yields two Findings, but the dict collapses both to
the single effective folder name `foo`, so only one counter increment
happens: `matched + mismatched = 1 ≠ 2`. -/
theorem C2_counterexample :
    process_repo rd0 env0 = some (⟨1, 1, 0, 0⟩,
      ["foo => https://raw.githubusercontent.com/o/r/main/sub/foo/package.xml\n"]) ∧
    fetch_tree_with_git "https://github.com/o/r" (some "main") env0 =
      some (FetchOutcome.tree T0 "main") ∧
    (find_all_files_in_tree T0 "package.xml" "").length = 2 ∧
    (1 : Nat) + 0 ≠ 2 :=
  ⟨rfl, rfl, rfl, by decide⟩

/-- C2 witness: on the same two-finding tree the amended statement holds —
`matched + mismatched` equals the one distinct effective folder name. -/
theorem C2_witness :
    (⟨1, 1, 0, 0⟩ : Report).matched + (⟨1, 1, 0, 0⟩ : Report).mismatched =
      (((find_all_files_in_tree T0 "package.xml" "").map
        (fun x => if x.1 = "" then "r" else x.1)).toFinset).card :=
  C2_amended_matched_mismatched rd0 env0 "https://github.com/o/r" "o" "r" T0 "main"
    ⟨1, 1, 0, 0⟩
    ["foo => https://raw.githubusercontent.com/o/r/main/sub/foo/package.xml\n"]
    rfl (by decide) rfl rfl rfl

theorem process_repo_total (rd : RepoData) (env : RepoEnv) (d : Report)
    (out : List String) (hpr : process_repo rd env = some (d, out)) :
    d.total = if optFalsy rd.url then 0 else (rd.packages.getD []).length := by
  cases hu : rd.url with
  | none =>
    simp only [process_repo, hu, Option.some.injEq, Prod.mk.injEq] at hpr
    simp [optFalsy, ← hpr.1]
  | some u =>
    by_cases he : u = ""
    · subst he
      simp [process_repo, hu] at hpr
      simp [optFalsy, ← hpr.1]
    · simp only [process_repo, hu, if_neg he] at hpr
      cases hdeps : get_package_dependencies u (some (rd.version.getD "main")) env
        "package.xml" with
      | none => rw [hdeps] at hpr; exact absurd hpr (by simp)
      | some D =>
        rw [hdeps] at hpr
        simp only [Option.some.injEq, Prod.mk.injEq] at hpr
        simp [optFalsy, he, ← hpr.1]

theorem run_total_fold (entries : List (RepoData × RepoEnv)) (acc : Report × List String) :
    (entries.foldl (fun acc e =>
      match process_repo e.1 e.2 with
      | none => acc
      | some (d, lines) => (addReport acc.1 d, acc.2 ++ lines)) acc).1.total =
      acc.1.total +
      ((entries.filter (fun e =>
          !optFalsy e.1.url && (process_repo e.1 e.2).isSome)).map
        (fun e => (e.1.packages.getD []).length)).sum := by
  induction entries generalizing acc with
  | nil => simp
  | cons e entries ih =>
    rw [List.foldl_cons, List.filter_cons]
    cases hp : process_repo e.1 e.2 with
    | none =>
      simp only [hp, Option.isSome_none, Bool.and_false, if_neg (by decide : ¬ (false = true))]
      exact ih acc
    | some p =>
      obtain ⟨d, lines⟩ := p
      have htot := process_repo_total e.1 e.2 d lines hp
      simp only [hp]
      rw [ih]
      cases hf : optFalsy e.1.url with
      | true =>
        rw [hf] at htot
        simp only [hf, Bool.not_true, Bool.false_and,
          if_neg (by decide : ¬ (false = true))]
        simp [addReport, htot]
      | false =>
        rw [hf] at htot
        simp only [hf, Bool.not_false, Option.isSome_some, Bool.and_true,
          if_pos (by decide : (true = true)), List.map_cons, List.sum_cons]
        simp [addReport, htot]
        omega

/-- C1 (amended): after a complete run, `total` equals the sum of the
declared package-list lengths over the manifest entries that have a usable
(non-empty, present) `url` and whose worker completed without an exception;
it is independent of how many Findings each repository produced. Entries
with a missing or empty `url` (and workers that raised) contribute
nothing to `total`, contrary to the claim's "all manifest entries". -/
theorem C1_amended_total (entries : List (RepoData × RepoEnv)) :
    (parse_and_validate_yaml entries).1.total =
      ((entries.filter (fun e =>
          !optFalsy e.1.url && (process_repo e.1 e.2).isSome)).map
        (fun e => (e.1.packages.getD []).length)).sum := by
  rw [parse_and_validate_yaml, run_total_fold]
  simp

/-- C1 counterexample: a complete run over a single manifest entry with no
`url` but one declared package ends with `total = 0`, while the sum over
ALL manifest entries of the declared-package-list length is `1`. -/
theorem C1_counterexample :
    (parse_and_validate_yaml [(rdNoUrl, env0)]).1.total = 0 ∧
    (([(rdNoUrl, env0)].map (fun e => (e.1.packages.getD []).length)).sum) = 1 :=
  ⟨rfl, rfl⟩

theorem splitChAux_append_sep (sep : Char) (xs ys : List Char) (acc : List Char) :
    splitChAux sep (xs ++ sep :: ys) acc =
      splitChAux sep xs acc ++ splitChAux sep ys [] := by
  induction xs generalizing acc with
  | nil => simp [splitChAux]
  | cons c xs ih =>
    by_cases h : c = sep
    · simp [splitChAux, h, ih]
    · simp [splitChAux, h, ih]

theorem splitChAux_no_sep (sep : Char) (b : List Char) (acc : List Char)
    (h : sep ∉ b) : splitChAux sep b acc = [acc.reverse ++ b] := by
  induction b generalizing acc with
  | nil => simp [splitChAux]
  | cons c b ih =>
    simp only [List.mem_cons] at h
    push_neg at h
    rw [splitChAux, if_neg (fun hh => h.1 hh.symm), ih _ h.2]
    simp

theorem pySplit_append_sep (a b : String) :
    pySplit (a ++ "/" ++ b) '/' = pySplit a '/' ++ pySplit b '/' := by
  unfold pySplit
  have hdata : (a ++ "/" ++ b).data = a.data ++ '/' :: b.data := by
    simp [String.data_append]
  rw [hdata, splitChAux_append_sep, List.map_append]

theorem pySplit_no_slash (s : String) (h : '/' ∉ s.data) : pySplit s '/' = [s] := by
  unfold pySplit
  rw [splitChAux_no_sep _ _ _ h]
  simp

mutual

theorem find_all_shape_node (filename : String) (value : PathNode) :
    ∀ (path f p : String),
      (f, p) ∈ (match value with
        | PathNode.dir sub => find_all_files_in_tree sub filename path
        | PathNode.file => []) →
      ∃ q : String, p = (if q = "" then filename else q ++ "/" ++ filename) ∧
        f = (if pyContainsSlash q then (pySplit q '/').getLastD "" else q) := by
  intro path f p hmem
  cases value with
  | dir sub => exact find_all_shape filename sub path f p hmem
  | file => simp at hmem

theorem find_all_shape (filename : String) (t : Entries) :
    ∀ (path f p : String), (f, p) ∈ find_all_files_in_tree t filename path →
      ∃ q : String, p = (if q = "" then filename else q ++ "/" ++ filename) ∧
        f = (if pyContainsSlash q then (pySplit q '/').getLastD "" else q) := by
  intro path f p hmem
  cases t with
  | nil => simp [find_all_files_in_tree] at hmem
  | cons key value rest =>
    rw [find_all_files_in_tree.eq_def] at hmem
    rcases List.mem_append.mp hmem with hm | hm
    · by_cases hk : key = filename
      · rw [if_pos hk] at hm
        simp only [List.mem_singleton, Prod.mk.injEq] at hm
        refine ⟨path, ?_, hm.1⟩
        rw [hm.2, hk]
      · rw [if_neg hk] at hm
        exact find_all_shape_node filename value
          (if path = "" then key else path ++ "/" ++ key) f p hm
    · exact find_all_shape filename rest path f p hm

end

/-- C3: for every tree and slash-free target filename, each Finding's path
splits as a chain of segments followed by the filename, and its
`folder_name` is exactly the last segment of that chain — the immediate
parent directory name of the matching path (for `a/b/package.xml` it is
`b`), and the empty string for a match at the tree root. -/
theorem C3_folder_is_parent_segment (t : Entries) (filename : String)
    (hfn : '/' ∉ filename.data) (f p : String)
    (hmem : (f, p) ∈ find_all_files_in_tree t filename "") :
    ∃ segs : List String, pySplit p '/' = segs ++ [filename] ∧
      f = segs.getLastD "" := by
  obtain ⟨q, hp, hf⟩ := find_all_shape filename t "" f p hmem
  by_cases hq : q = ""
  · rw [hq] at hp hf
    refine ⟨[], ?_, ?_⟩
    · rw [if_pos rfl] at hp
      rw [hp, pySplit_no_slash filename hfn, List.nil_append]
    · rw [hf]
      rfl
  · refine ⟨pySplit q '/', ?_, ?_⟩
    · rw [if_neg hq] at hp
      rw [hp, pySplit_append_sep, pySplit_no_slash filename hfn]
    · cases hcs : pyContainsSlash q with
      | true => rw [hf, if_pos hcs]
      | false =>
        rw [hf, if_neg (by rw [hcs]; decide)]
        have hns : '/' ∉ q.data := by
          rw [pyContainsSlash] at hcs
          simp at hcs
          exact hcs
        rw [pySplit_no_slash q hns]
        rfl

/-- C3 witness: on the tree holding `a/b/package.xml` the Finding is
`("b", "a/b/package.xml")` and its folder name is the immediate parent
segment `b`. -/
theorem C3_witness :
    ('/' ∉ ("package.xml" : String).data) ∧
    (("b", "a/b/package.xml") ∈ find_all_files_in_tree TA "package.xml" "") ∧
    ∃ segs : List String,
      pySplit "a/b/package.xml" '/' = segs ++ ["package.xml"] ∧
      "b" = segs.getLastD "" :=
  ⟨by decide, by decide,
    C3_folder_is_parent_segment TA "package.xml" (by decide) "b" "a/b/package.xml"
      (by decide)⟩

end PkgDeps
